import Mathlib

/-!
Shallow embedding of the SegaGenesisBMP2HEX repository
(`src/GenesisBMP2HEX.py` and `src/GenesisHEX2BMP.py`) and proofs about it.

Conventions of the embedding:
* Python integers become `Nat`; byte sequences become `List Nat`.
* Text becomes `List Char`; `str.join`, f-string hex formatting and the
  two regex scans of the reverse converter are modelled character by
  character (`joinWith`, `toHexPad`, `afterLabel`, `captureUntil`, `scanHex`).
* Python's fallible list indexing is modelled with `Option`
  (`create_genesis_palette`); Python slicing, which silently truncates,
  is modelled with `List.drop`/`List.take` (`create_bmp`).
* The PIL quantizer is an external component: `create_genesis_palette`
  takes its output (`quantized.getpalette()[:48]`) as the input list.
-/

namespace Genesis

set_option maxRecDepth 8000

/-! ## ColorCodec -/

/-- Models Python `round(c / 255 * 7)` for a natural-number channel `c`:
round-half-to-even of the exact rational `7*c/255`.  For `0 ≤ c ≤ 255` the
exact value is never closer than `1/510` to a half-integer (255 is odd), far
above double-precision error, so rounding the exact rational agrees with the
source's float computation, and the half-integer tie branch is unreachable. -/
def pyRound7over255 (c : Nat) : Nat :=
  let n := 7 * c
  let q := n / 255
  let r := n % 255
  if 2 * r < 255 then q
  else if 255 < 2 * r then q + 1
  else if q % 2 = 0 then q else q + 1

/-- `rgb_to_genesis_color` from GenesisBMP2HEX.py: each 8-bit channel is scaled
to 3 bits by `round(ch / 255 * 7)` and the result packed as `BBB GGG RRR`. -/
def rgb_to_genesis_color (r g b : Nat) : Nat :=
  let genesis_r := pyRound7over255 r
  let genesis_g := pyRound7over255 g
  let genesis_b := pyRound7over255 b
  (genesis_b <<< 6) ||| (genesis_g <<< 3) ||| genesis_r

/-- `genesis_to_rgb` from GenesisHEX2BMP.py: extract the three 3-bit fields of
a 9-bit Genesis color and shift them back toward 8-bit range.  Returns
`(r, g, b)`. -/
def genesis_to_rgb (color : Nat) : Nat × Nat × Nat :=
  ((color &&& 0x007) <<< 5, (color &&& 0x038) <<< 2, (color &&& 0x1C0) >>> 1)

/-- Requantization of one 3-bit field after a decode/encode round trip through
`genesis_to_rgb` and `rgb_to_genesis_color`: the field survives when it is at
most 4 and is decremented otherwise (because decode scales by 32 = `<<< 5`
while exact inversion of `round(c/255*7)` would need a scale of 255/7). -/
def channel_requant (f : Nat) : Nat := if 5 ≤ f then f - 1 else f

/-! ## PaletteBuilder -/

/-- Builds a list from fallible per-element computations, failing as a whole if
any element fails — the shape of a Python loop appending to a list where each
iteration may raise `IndexError`. -/
def mapOpt (f : Nat → Option Nat) : List Nat → Option (List Nat)
  | [] => some []
  | a :: as =>
    match f a, mapOpt f as with
    | some b, some bs => some (b :: bs)
    | _, _ => none

/-- `create_genesis_palette` from GenesisBMP2HEX.py, from the point where the
external PIL quantizer has produced `palette_colors = quantized.getpalette()[:48]`
(the flattened R,G,B triples): the loop `for i in range(0, 48, 3)` converts each
triple with `rgb_to_genesis_color` (raising `IndexError`, here `none`, if the
list is too short), then the `while` loop pads the result to 16 entries with 0. -/
def create_genesis_palette (palette_colors : List Nat) : Option (List Nat) :=
  match mapOpt
      (fun i =>
        match palette_colors[i]?, palette_colors[i+1]?, palette_colors[i+2]? with
        | some r, some g, some b => some (rgb_to_genesis_color r g b)
        | _, _, _ => none)
      ((List.range 16).map (· * 3)) with
  | none => none
  | some gp => some (gp ++ List.replicate (16 - gp.length) 0)

/-! ## Tiler -/

/-- `image_to_tiles` from GenesisBMP2HEX.py.  The indexed image is a function
`img : x → y → Nat` of the original `width × height` region; the source pastes
it into a zero-filled image whose dimensions are rounded up to multiples of 8
(when already multiples, no paste happens, which reads the same values), then
walks tile rows, tiles, and pixels in row-major order, masking each pixel with
`& 0xF`. -/
def image_to_tiles (img : Nat → Nat → Nat) (width height : Nat) : List (List Nat) :=
  let new_width := ((width + 7) / 8) * 8
  let new_height := ((height + 7) / 8) * 8
  let px : Nat → Nat → Nat := fun x y => if x < width ∧ y < height then img x y else 0
  let tiles_x := new_width / 8
  let tiles_y := new_height / 8
  (List.range tiles_y).flatMap fun tile_y =>
    (List.range tiles_x).map fun tile_x =>
      (List.range 8).flatMap fun y =>
        (List.range 8).map fun x => px (tile_x * 8 + x) (tile_y * 8 + y) &&& 0xF

/-! ## TileCodec -/

/-- The packing loop of `tiles_to_genesis_hex` from GenesisBMP2HEX.py for one
tile: `for i in range(0, 64, 2): (tile[i] << 4) | tile[i+1]` — two 4-bit pixels
per byte, high nibble first.  The source formats each byte as a hex string and
raises `IndexError` on tiles shorter than 64; here out-of-range indexing is
`getD _ 0` and the claims assume 64 entries. -/
def pack_tile (tile : List Nat) : List Nat :=
  (List.range 32).map fun j => (tile.getD (2*j) 0 <<< 4) ||| tile.getD (2*j+1) 0

/-- The unpacking of one byte in `create_bmp` from GenesisHEX2BMP.py:
`row.append((byte >> 4) & 0x0F); row.append(byte & 0x0F)`. -/
def unpack_byte (b : Nat) : List Nat := [(b >>> 4) &&& 0xF, b &&& 0xF]

/-- Unpacking a tile byte stream: each byte contributes its high then its low
nibble (the inner loop of `create_bmp` applied to a whole 32-byte tile). -/
def unpack_tile (bs : List Nat) : List Nat := bs.flatMap unpack_byte

/-! ## AssemblyFormatter -/

/-- Uppercase hex digit, as produced by Python `"%X"` formatting. -/
def hexDigitChar (d : Nat) : Char := if d < 10 then Char.ofNat (48 + d) else Char.ofNat (55 + d)

/-- Big-endian uppercase hex digits of `n`, empty for 0. -/
def natHexDigits (n : Nat) : List Char :=
  if h : n = 0 then [] else natHexDigits (n / 16) ++ [hexDigitChar (n % 16)]
decreasing_by exact Nat.div_lt_self (Nat.pos_of_ne_zero h) (by omega)

/-- Python `f"{n:0wX}"` for `n < 16^w`: zero-padded fixed-width uppercase hex. -/
def toHexPad (w n : Nat) : List Char :=
  let ds := natHexDigits n
  List.replicate (w - ds.length) '0' ++ ds

/-- Decimal digit character. -/
def decDigitChar (d : Nat) : Char := Char.ofNat (48 + d)

/-- Big-endian decimal digits of `n`, empty for 0. -/
def natDecDigits (n : Nat) : List Char :=
  if h : n = 0 then [] else natDecDigits (n / 10) ++ [decDigitChar (n % 10)]
decreasing_by exact Nat.div_lt_self (Nat.pos_of_ne_zero h) (by omega)

/-- Python `str(n)` for a natural number. -/
def toDec (n : Nat) : List Char := if n = 0 then ['0'] else natDecDigits n

/-- Python `sep.join(strings)`. -/
def joinWith (sep : List Char) : List (List Char) → List Char
  | [] => []
  | [l] => l
  | l :: ls => l ++ sep ++ joinWith sep ls

/-- Python slicing `l[i:i+k]` stepped over the whole list:
the chunk decomposition used by `for i in range(0, len(l), k)`. -/
def chunksOf (k : Nat) : List Nat → List (List Nat)
  | [] => []
  | a :: rest => (a :: rest.take (k-1)) :: chunksOf k (rest.drop (k-1))
termination_by l => l.length
decreasing_by
  simp only [List.length_cons, List.length_drop]
  omega

/-- One palette line of `format_output`:
`"    dc.w " + ", ".join(f"${color:04X}" for up to 8 colors)`. -/
def dcwLine (vs : List Nat) : List Char :=
  "    dc.w ".toList ++ joinWith ", ".toList (vs.map fun v => '$' :: toHexPad 4 v)

/-- One tile line of `format_output`:
`"    dc.b $" + ", $".join(16 two-digit hex bytes)` — the two-digit formatting
is the `f"{byte_value:02X}"` of `tiles_to_genesis_hex`. -/
def dcbLine (bs : List Nat) : List Char :=
  "    dc.b $".toList ++ joinWith ", $".toList (bs.map (toHexPad 2))

/-- `format_output` from GenesisBMP2HEX.py: the assembly document, as the
character list produced by `"\n".join(output)`.  `tile_data` is the tile byte
stream (the source carries it as hex strings produced by
`tiles_to_genesis_hex`; the two-digit rendering happens in `dcbLine`). -/
def format_output (palette tile_data : List Nat) (total_tiles tiles_x tiles_y : Nat) :
    List Char :=
  joinWith ['\n']
    ([ "; Genesis Palette Data (16 colors)".toList,
       "palette_data:".toList,
       dcwLine ((palette.drop 0).take 8),
       dcwLine ((palette.drop 8).take 8),
       [],
       "; Genesis Tile Data".toList,
       "; ".toList ++ toDec total_tiles ++ " tiles (".toList ++ toDec tiles_x
         ++ "x".toList ++ toDec tiles_y ++ ")".toList,
       "tile_data:".toList ]
      ++ (chunksOf 16 tile_data).map dcbLine)

/-- The trailing lines of the tile block after the first one, as they sit in
the document: each later chunk contributes `"\n" ++ "    dc.b $..."`. -/
def tileTail : List (List Nat) → List Char
  | [] => []
  | c :: cs => '\n' :: (dcbLine c ++ tileTail cs)

/-! ## AssemblyParser -/

/-- The regex character class `[0-9A-Fa-f]`. -/
def isHexDigitC (c : Char) : Bool :=
  (48 ≤ c.toNat && c.toNat ≤ 57) || (65 ≤ c.toNat && c.toNat ≤ 70)
    || (97 ≤ c.toNat && c.toNat ≤ 102)

/-- Python regex `\s`: space, tab, newline, carriage return, vertical tab,
form feed. -/
def isSpaceC (c : Char) : Bool :=
  c = ' ' || c = '\t' || c = '\n' || c = '\r' || c.toNat = 11 || c.toNat = 12

/-- Value of one `[0-9A-Fa-f]` digit (0 for other characters, unreachable in
use). -/
def hexDigitVal (c : Char) : Nat :=
  if 48 ≤ c.toNat && c.toNat ≤ 57 then c.toNat - 48
  else if 65 ≤ c.toNat && c.toNat ≤ 70 then c.toNat - 55
  else if 97 ≤ c.toNat && c.toNat ≤ 102 then c.toNat - 87
  else 0

/-- Python `int(digits, 16)`. -/
def hexVal (ds : List Char) : Nat := ds.foldl (fun a c => 16 * a + hexDigitVal c) 0

/-- Boolean list-prefix test (the literal part of a regex matching at one
position). -/
def pfx : List Char → List Char → Bool
  | [], _ => true
  | _ :: _, [] => false
  | a :: as, b :: bs => a == b && pfx as bs

/-- First match of the literal `label` scanning left to right, returning the
text after it — the position where `re.findall(label + ...)` anchors its first
match (the remainder of the pattern always succeeds, see `captureUntil`). -/
def afterLabel (label : List Char) : List Char → Option (List Char)
  | [] => none
  | c :: cs =>
    if pfx label (c :: cs) then some ((c :: cs).drop label.length)
    else afterLabel label cs

/-- The lazy capture `(.*?)(?=\n\S|\Z)` under `re.DOTALL`, applied after the
greedy `\s*` has been consumed: take characters up to (excluding) the first
newline that is followed by a non-whitespace character, or to the end of the
text (`\Z` always lets the overall match succeed). -/
def captureUntil : List Char → List Char
  | [] => []
  | [c] => [c]
  | c :: d :: rest =>
    if c = '\n' ∧ isSpaceC d = false then [] else c :: captureUntil (d :: rest)

/-- A character list that does not begin with a hex digit (so a hex-digit run
read by the regex scanner ends exactly at its head). -/
def headNotHex : List Char → Prop
  | [] => True
  | c :: _ => isHexDigitC c = false

/-- `re.findall(r'\$([0-9A-Fa-f]{lo,hi})', s)` as integer values: scan left to
right; at each `$` take the following run of hex digits; if at least `lo` are
present, greedily capture `min hi run` of them and resume after the capture,
otherwise move one character on. -/
def scanHex (lo hi : Nat) : List Char → List Nat
  | [] => []
  | c :: cs =>
    if c = '$' then
      let run := cs.takeWhile isHexDigitC
      if lo ≤ run.length then
        hexVal (run.take hi) :: scanHex lo hi (cs.drop (run.take hi).length)
      else scanHex lo hi cs
    else scanHex lo hi cs
termination_by l => l.length
decreasing_by
  · simp only [List.length_cons, List.length_drop]
    omega
  · simp
  · simp

/-- One labelled section of `parse_genesis_assembly`: locate `label`, consume
whitespace (`\s*`), capture lazily up to the next line that starts with
non-whitespace, and collect the `$`-prefixed hex literals inside.  A missing
label yields the empty list. -/
def sectionHex (label : List Char) (lo hi : Nat) (content : List Char) : List Nat :=
  match afterLabel label content with
  | none => []
  | some rest => scanHex lo hi (captureUntil (rest.dropWhile isSpaceC))

/-- `parse_genesis_assembly` from GenesisHEX2BMP.py on the file's text:
palette words are `\$([0-9A-Fa-f]{3,4})` after `palette_data:`, tile bytes are
`\$([0-9A-Fa-f]{2})` after `tile_data:`. -/
def parse_genesis_assembly (content : List Char) : List Nat × List Nat :=
  (sectionHex "palette_data:".toList 3 4 content,
   sectionHex "tile_data:".toList 2 2 content)

/-! ## BitmapWriter -/

/-- Two bytes of `struct.pack('<H', n)`. -/
def le16 (n : Nat) : List Nat := [n % 256, n / 256 % 256]

/-- Four bytes of `struct.pack('<L', n)`. -/
def le32 (n : Nat) : List Nat := [n % 256, n / 256 % 256, n / 65536 % 256, n / 16777216 % 256]

/-- One color-table entry of `create_bmp`: `struct.pack('<BBBx', min(b,255),
min(g,255), min(r,255))` for the decoded channels of one palette word. -/
def color_entry (color : Nat) : List Nat :=
  let rgb := genesis_to_rgb color
  [min rgb.2.2 255, min rgb.2.1 255, min rgb.1 255, 0]

/-- The nibble-repacking loop of `create_bmp`:
`for i in range(0, len(row), 2): (row[i] << 4) | row[i+1]`.  The rows it is
applied to always have even length (each tile byte contributes two nibbles). -/
def pack_pairs : List Nat → List Nat
  | a :: b :: rest => ((a <<< 4) ||| b) :: pack_pairs rest
  | _ => []

/-- One reconstructed pixel row of `create_bmp` (before repacking): walk tile
columns left to right, slice 4 bytes of the tile's 32-byte block at offset
`y*4` (Python slicing: silently shorter when the data runs out), and unpack
each byte into two pixel indices. -/
def bmp_row (tile_data : List Nat) (width_tiles ty y : Nat) : List Nat :=
  (List.range width_tiles).flatMap fun tx =>
    let tile_start := (ty * width_tiles + tx) * 32
    ((tile_data.drop (tile_start + y * 4)).take 4).flatMap unpack_byte

/-- The pixel-data section of `create_bmp`: tile rows bottom-to-top
(`range(height_tiles-1, -1, -1)`), intra-tile rows bottom-to-top
(`range(7, -1, -1)`), each packed row zero-padded to a multiple of 4 bytes
(`b'\x00' * (-len(packed_row) % 4)`). -/
def bmp_pixel_data (tile_data : List Nat) (width_tiles height_tiles : Nat) : List Nat :=
  ((List.range height_tiles).reverse).flatMap fun ty =>
    ((List.range 8).reverse).flatMap fun y =>
      let packed_row := pack_pairs (bmp_row tile_data width_tiles ty y)
      packed_row ++ List.replicate ((4 - packed_row.length % 4) % 4) 0

/-- `create_bmp` from GenesisHEX2BMP.py as the byte list written to the output
file: BITMAPFILEHEADER, BITMAPINFOHEADER, the 16-entry color table zero-padded
to 64 bytes, then the bottom-up pixel data. -/
def create_bmp (palette tile_data : List Nat) (width_tiles height_tiles : Nat) : List Nat :=
  let width_px := width_tiles * 8
  let height_px := height_tiles * 8
  let headers := le16 0x4D42 ++ le32 (54 + 64 + width_px * height_px / 2)
      ++ le16 0 ++ le16 0 ++ le32 (54 + 64)
  let info := le32 40 ++ le32 width_px ++ le32 height_px ++ le16 1 ++ le16 4
      ++ le32 0 ++ le32 0 ++ le32 2835 ++ le32 2835 ++ le32 16 ++ le32 16
  let raw_table := palette.flatMap color_entry
  let color_table := raw_table ++ List.replicate (64 - raw_table.length) 0
  headers ++ info ++ color_table ++ bmp_pixel_data tile_data width_tiles height_tiles

/-! ## Arithmetic helper lemmas -/

theorem nibble_facts : ∀ a < 16, ∀ b < 16,
    ((a <<< 4) ||| b) < 256 ∧ (((a <<< 4) ||| b) >>> 4) &&& 15 = a
      ∧ ((a <<< 4) ||| b) &&& 15 = b := by decide

theorem land15_of_lt {v : Nat} (h : v < 16) : v &&& 15 = v := by
  have hall : ∀ w < 16, w &&& 15 = w := by decide
  exact hall v h

theorem pyRound_le7 : ∀ c < 256, pyRound7over255 c ≤ 7 := by decide

theorem pack_fields : ∀ x < 8, ∀ y < 8, ∀ z < 8,
    (x <<< 6) ||| (y <<< 3) ||| z = 64 * x + 8 * y + z := by decide

theorem rgb_to_genesis_color_eq (r g b : Nat) (hr : r ≤ 255) (hg : g ≤ 255) (hb : b ≤ 255) :
    rgb_to_genesis_color r g b
      = 64 * pyRound7over255 b + 8 * pyRound7over255 g + pyRound7over255 r := by
  have h1 := pyRound_le7 r (by omega)
  have h2 := pyRound_le7 g (by omega)
  have h3 := pyRound_le7 b (by omega)
  exact pack_fields _ (by omega) _ (by omega) _ (by omega)

theorem rgb_to_genesis_color_le (r g b : Nat) (hr : r ≤ 255) (hg : g ≤ 255) (hb : b ≤ 255) :
    rgb_to_genesis_color r g b ≤ 511 := by
  have h1 := pyRound_le7 r (by omega)
  have h2 := pyRound_le7 g (by omega)
  have h3 := pyRound_le7 b (by omega)
  rw [rgb_to_genesis_color_eq r g b hr hg hb]
  omega

/-! ## C5: the color encoder -/

/-- C5: for channels in 0–255, `rgb_to_genesis_color` returns
`(round(b/255*7)<<6) | (round(g/255*7)<<3) | round(r/255*7)` (the definition),
each rounded channel lies in 0–7, the packing coincides with
`64*B3 + 8*G3 + R3`, and the packed result lies in 0–511. -/
theorem c5_encode_spec (r g b : Nat) (hr : r ≤ 255) (hg : g ≤ 255) (hb : b ≤ 255) :
    rgb_to_genesis_color r g b
        = 64 * pyRound7over255 b + 8 * pyRound7over255 g + pyRound7over255 r
      ∧ pyRound7over255 r ≤ 7 ∧ pyRound7over255 g ≤ 7 ∧ pyRound7over255 b ≤ 7
      ∧ rgb_to_genesis_color r g b ≤ 511 :=
  ⟨rgb_to_genesis_color_eq r g b hr hg hb,
   pyRound_le7 r (by omega), pyRound_le7 g (by omega), pyRound_le7 b (by omega),
   rgb_to_genesis_color_le r g b hr hg hb⟩

/-- Witness for C5 at the concrete input (255, 128, 160). -/
theorem c5_encode_spec_witness :
    rgb_to_genesis_color 255 128 160
        = 64 * pyRound7over255 160 + 8 * pyRound7over255 128 + pyRound7over255 255
      ∧ pyRound7over255 255 ≤ 7 ∧ pyRound7over255 128 ≤ 7 ∧ pyRound7over255 160 ≤ 7
      ∧ rgb_to_genesis_color 255 128 160 ≤ 511 :=
  c5_encode_spec 255 128 160 (by omega) (by omega) (by omega)

/-! ## C3: decode followed by encode -/

/-- C3 (corrected): decoding a Color9 with `genesis_to_rgb` and re-encoding
with `rgb_to_genesis_color` does NOT recover every value; each 3-bit field `f`
comes back as `channel_requant f`, i.e. unchanged for `f ≤ 4` and as `f - 1`
for `f ≥ 5` — so the round trip is the identity exactly when every field is at
most 4. -/
theorem c3_encode_decode_requant : ∀ v < 512,
    rgb_to_genesis_color (genesis_to_rgb v).1 (genesis_to_rgb v).2.1 (genesis_to_rgb v).2.2
        = 64 * channel_requant (v / 64 % 8) + 8 * channel_requant (v / 8 % 8)
          + channel_requant (v % 8)
      ∧ (rgb_to_genesis_color (genesis_to_rgb v).1 (genesis_to_rgb v).2.1
            (genesis_to_rgb v).2.2 = v
          ↔ v % 8 ≤ 4 ∧ v / 8 % 8 ≤ 4 ∧ v / 64 % 8 ≤ 4) := by decide

/-- Counterexample to C3 as stated: at Color9 value 7 (red field 7, which
decodes to 224 and re-encodes to `round(224/255*7) = 6`), the round trip is
not the identity. -/
theorem c3_counterexample :
    rgb_to_genesis_color (genesis_to_rgb 7).1 (genesis_to_rgb 7).2.1 (genesis_to_rgb 7).2.2
      ≠ 7 := by decide

/-- Witness for the amended C3 at the concrete value 300. -/
theorem c3_encode_decode_requant_witness :
    rgb_to_genesis_color (genesis_to_rgb 300).1 (genesis_to_rgb 300).2.1
          (genesis_to_rgb 300).2.2
        = 64 * channel_requant (300 / 64 % 8) + 8 * channel_requant (300 / 8 % 8)
          + channel_requant (300 % 8)
      ∧ (rgb_to_genesis_color (genesis_to_rgb 300).1 (genesis_to_rgb 300).2.1
            (genesis_to_rgb 300).2.2 = 300
          ↔ 300 % 8 ≤ 4 ∧ 300 / 8 % 8 ≤ 4 ∧ 300 / 64 % 8 ≤ 4) :=
  c3_encode_decode_requant 300 (by omega)

/-! ## C10: decoded channels never need the clamp -/

/-- C10: for every Color9 value `v` in 0–511, `genesis_to_rgb` returns exactly
the three 3-bit fields multiplied by 32 (so every channel is at most 224 and
the `min _ 255` clamps of the color-table builder change nothing: the
color-table entry is the unclamped `[B, G, R, 0]`). -/
theorem c10_decode_channels : ∀ v < 512,
    genesis_to_rgb v = ((v % 8) * 32, (v / 8 % 8) * 32, (v / 64 % 8) * 32)
      ∧ (genesis_to_rgb v).1 ≤ 224 ∧ (genesis_to_rgb v).2.1 ≤ 224
      ∧ (genesis_to_rgb v).2.2 ≤ 224
      ∧ min (genesis_to_rgb v).1 255 = (genesis_to_rgb v).1
      ∧ min (genesis_to_rgb v).2.1 255 = (genesis_to_rgb v).2.1
      ∧ min (genesis_to_rgb v).2.2 255 = (genesis_to_rgb v).2.2
      ∧ color_entry v = [(v / 64 % 8) * 32, (v / 8 % 8) * 32, (v % 8) * 32, 0] := by
  decide

/-- Witness for C10 at the concrete value 0x1FF. -/
theorem c10_decode_channels_witness :
    genesis_to_rgb 511 = ((511 % 8) * 32, (511 / 8 % 8) * 32, (511 / 64 % 8) * 32)
      ∧ (genesis_to_rgb 511).1 ≤ 224 ∧ (genesis_to_rgb 511).2.1 ≤ 224
      ∧ (genesis_to_rgb 511).2.2 ≤ 224
      ∧ min (genesis_to_rgb 511).1 255 = (genesis_to_rgb 511).1
      ∧ min (genesis_to_rgb 511).2.1 255 = (genesis_to_rgb 511).2.1
      ∧ min (genesis_to_rgb 511).2.2 255 = (genesis_to_rgb 511).2.2
      ∧ color_entry 511 = [(511 / 64 % 8) * 32, (511 / 8 % 8) * 32, (511 % 8) * 32, 0] :=
  c10_decode_channels 511 (by omega)

/-! ## C1: pack/unpack round trip -/

theorem unpack_byte_pack (a b : Nat) (ha : a < 16) (hb : b < 16) :
    unpack_byte ((a <<< 4) ||| b) = [a, b] := by
  have h := nibble_facts a ha b hb
  simp only [unpack_byte, h.2.1, h.2.2]

theorem unpack_pack_aux :
    ∀ (m : Nat) (t : List Nat), t.length = 2 * m → (∀ v ∈ t, v < 16) →
      unpack_tile ((List.range m).map fun j => (t.getD (2*j) 0 <<< 4) ||| t.getD (2*j+1) 0)
        = t := by
  intro m
  induction m with
  | zero =>
    intro t ht _
    cases t with
    | nil => rfl
    | cons a as => simp at ht
  | succ m ih =>
    intro t ht hv
    cases t with
    | nil => simp at ht
    | cons a t1 =>
      cases t1 with
      | nil => simp at ht; omega
      | cons b rest =>
        have hrest : rest.length = 2 * m := by
          simp only [List.length_cons] at ht; omega
        rw [List.range_succ_eq_map, List.map_cons, List.map_map]
        have hhead : ((a :: b :: rest).getD (2*0) 0 <<< 4) ||| (a :: b :: rest).getD (2*0+1) 0
            = (a <<< 4) ||| b := by norm_num [List.getD]
        have hfun : ((List.range m).map
              ((fun j => ((a :: b :: rest).getD (2*j) 0 <<< 4)
                  ||| (a :: b :: rest).getD (2*j+1) 0) ∘ Nat.succ))
            = (List.range m).map
              (fun j => (rest.getD (2*j) 0 <<< 4) ||| rest.getD (2*j+1) 0) := by
          apply List.map_congr_left
          intro j _
          simp only [Function.comp_apply]
          have e1 : 2 * Nat.succ j = (2*j) + 1 + 1 := by omega
          rw [e1, List.getD_cons_succ, List.getD_cons_succ, List.getD_cons_succ,
            List.getD_cons_succ]
        rw [hhead, hfun]
        have ha : a < 16 := hv a (by simp)
        have hb : b < 16 := hv b (by simp)
        have hrv : ∀ v ∈ rest, v < 16 := fun v hvv => hv v (by simp [hvv])
        simp only [unpack_tile, List.flatMap_cons]
        rw [unpack_byte_pack a b ha hb]
        have := ih rest hrest hrv
        simp only [unpack_tile] at this
        rw [this]
        rfl

/-- C1: unpacking the 32 bytes produced by packing a 64-pixel tile whose
indices are all in 0–15 yields the tile again. -/
theorem c1_unpack_pack_tile (tile : List Nat) (hlen : tile.length = 64)
    (hval : ∀ v ∈ tile, v < 16) :
    unpack_tile (pack_tile tile) = tile :=
  unpack_pack_aux 32 tile (by omega) hval

/-- Witness for C1 on a concrete 64-pixel tile. -/
theorem c1_unpack_pack_tile_witness :
    unpack_tile (pack_tile ((List.range 64).map (· % 16)))
      = (List.range 64).map (· % 16) :=
  c1_unpack_pack_tile _ (by simp) (by decide)

/-! ## List helper lemmas for the tiler and the bitmap writer -/

theorem flatMap_length_const {α β : Type} (l : List α) (f : α → List β) (k : Nat)
    (h : ∀ a ∈ l, (f a).length = k) : (l.flatMap f).length = l.length * k := by
  induction l with
  | nil => simp
  | cons a as ih =>
    have hrec := ih (fun x hx => h x (by simp [hx]))
    simp only [List.flatMap_cons, List.length_append, List.length_cons, hrec,
      h a (by simp), Nat.succ_mul]
    omega

theorem map_range_getD {α : Type} (n j : Nat) (g : Nat → α) (d : α) (hj : j < n) :
    ((List.range n).map g).getD j d = g j := by
  rw [List.getD_eq_getElem _ _ (by simpa using hj)]
  simp

theorem grid_getD {α : Type} (m n : Nat) (f : Nat → Nat → α) (d : α) :
    ∀ i j, i < m → j < n →
      (((List.range m).flatMap fun a => (List.range n).map (f a)).getD (i * n + j) d)
        = f i j := by
  induction m with
  | zero => intro i j hi _; omega
  | succ m ih =>
    intro i j hi hj
    have hlen : (((List.range m).flatMap fun a => (List.range n).map (f a)).length)
        = m * n := by
      rw [flatMap_length_const _ _ n (fun a _ => by simp)]
      simp
    rw [List.range_succ, List.flatMap_append]
    by_cases him : i < m
    · rw [List.getD_append _ _ _ _ (by
        rw [hlen]
        calc i * n + j < i * n + n := by omega
          _ = (i + 1) * n := by ring
          _ ≤ m * n := Nat.mul_le_mul_right n (by omega))]
      exact ih i j him hj
    · have hieq : i = m := by omega
      subst hieq
      rw [List.getD_append_right _ _ _ _ (by rw [hlen]; omega)]
      rw [hlen]
      have hidx : i * n + j - i * n = j := by omega
      rw [hidx]
      simp only [List.flatMap_cons, List.flatMap_nil, List.append_nil]
      exact map_range_getD n j (f i) d hj

/-! ## C4: the tiler -/

/-- C4: for a `width × height` indexed image (all indices below 16), the tiler
emits exactly `⌈width/8⌉ * ⌈height/8⌉` tiles of 64 indices each, in row-major
tile order (tile `(tx, ty)` at list position `ty * tiles_x + tx`), each tile
row-major internally (local pixel `(x, y)` at offset `y*8 + x`), with original
pixels inside the image region and padding index 0 outside it. -/
theorem c4_image_to_tiles_spec (img : Nat → Nat → Nat) (width height : Nat)
    (hw : 1 ≤ width) (hh : 1 ≤ height) (hpix : ∀ x y, img x y < 16) :
    (image_to_tiles img width height).length = ((width+7)/8) * ((height+7)/8)
    ∧ (∀ t ∈ image_to_tiles img width height, t.length = 64)
    ∧ ∀ tx ty x y, tx < (width+7)/8 → ty < (height+7)/8 → x < 8 → y < 8 →
        ((image_to_tiles img width height).getD (ty * ((width+7)/8) + tx) []).getD
            (y*8+x) 0
          = if tx*8+x < width ∧ ty*8+y < height then img (tx*8+x) (ty*8+y) else 0 := by
  have hx8 : ((width + 7) / 8) * 8 / 8 = (width + 7) / 8 :=
    Nat.mul_div_cancel _ (by omega)
  have hy8 : ((height + 7) / 8) * 8 / 8 = (height + 7) / 8 :=
    Nat.mul_div_cancel _ (by omega)
  simp only [image_to_tiles, hx8, hy8]
  refine ⟨?_, ?_, ?_⟩
  · rw [flatMap_length_const _ _ ((width+7)/8) (fun a _ => by simp)]
    simp [Nat.mul_comm]
  · intro t ht
    obtain ⟨ty, _, hmem⟩ := List.mem_flatMap.1 ht
    obtain ⟨tx, _, rfl⟩ := List.mem_map.1 hmem
    exact flatMap_length_const _ _ 8 (fun a _ => by simp)
  · intro tx ty x y htx hty hx hy
    rw [grid_getD ((height+7)/8) ((width+7)/8) _ [] ty tx hty htx]
    rw [grid_getD 8 8 _ 0 y x hy hx]
    by_cases hin : tx*8+x < width ∧ ty*8+y < height
    · rw [if_pos hin]
      exact land15_of_lt (hpix _ _)
    · rw [if_neg hin]
      rfl

/-- Witness for C4 on the concrete 10×10 image `(x+y) % 16`: 2×2 tiles of 64
entries, with interior pixel and padding lookups. -/
theorem c4_image_to_tiles_spec_witness :
    (image_to_tiles (fun x y => (x+y) % 16) 10 10).length = ((10+7)/8) * ((10+7)/8)
    ∧ ((image_to_tiles (fun x y => (x+y) % 16) 10 10).getD
          (1 * ((10+7)/8) + 1) []).getD (2*8+2) 0
        = if 1*8+2 < 10 ∧ 1*8+2 < 10 then ((1*8+2) + (1*8+2)) % 16 else 0 := by
  have h := c4_image_to_tiles_spec (fun x y => (x+y) % 16) 10 10 (by omega) (by omega)
    (fun x y => Nat.mod_lt _ (by omega))
  exact ⟨h.1, h.2.2 1 1 2 2 (by omega) (by omega) (by omega) (by omega)⟩

/-! ## C7: the palette builder -/

theorem mapOpt_eq_map (f : Nat → Option Nat) (g : Nat → Nat) :
    ∀ l : List Nat, (∀ a ∈ l, f a = some (g a)) → mapOpt f l = some (l.map g) := by
  intro l
  induction l with
  | nil => intro _; rfl
  | cons a as ih =>
    intro h
    simp only [mapOpt, h a (by simp), ih (fun x hx => h x (by simp [hx])), List.map_cons]

/-- C7: given the 48 flattened R,G,B palette components produced by the
external quantizer (each in 0–255), `create_genesis_palette` succeeds and
returns a palette of exactly 16 entries, every entry a Color9 value in 0–511. -/
theorem c7_create_genesis_palette_spec (pcs : List Nat) (hlen : pcs.length = 48)
    (hval : ∀ v ∈ pcs, v ≤ 255) :
    ∃ l, create_genesis_palette pcs = some l ∧ l.length = 16 ∧ ∀ v ∈ l, v < 512 := by
  have hbound : ∀ i, i < 48 → pcs.getD i 0 ≤ 255 := by
    intro i hi
    have hi' : i < pcs.length := by omega
    rw [List.getD_eq_getElem _ _ hi']
    exact hval _ (List.getElem_mem hi')
  have hsome : ∀ i, i < pcs.length → pcs[i]? = some (pcs.getD i 0) := by
    intro i hi
    rw [List.getElem?_eq_getElem hi, List.getD_eq_getElem _ _ hi]
  have hmap := mapOpt_eq_map
    (fun i =>
      match pcs[i]?, pcs[i+1]?, pcs[i+2]? with
      | some r, some g, some b => some (rgb_to_genesis_color r g b)
      | _, _, _ => none)
    (fun i => rgb_to_genesis_color (pcs.getD i 0) (pcs.getD (i+1) 0) (pcs.getD (i+2) 0))
    ((List.range 16).map (· * 3))
    (by
      intro a ha
      obtain ⟨k, hk, rfl⟩ := List.mem_map.1 ha
      have hk16 : k < 16 := List.mem_range.1 hk
      have h1 := hsome (k*3) (by omega)
      have h2 := hsome (k*3+1) (by omega)
      have h3 := hsome (k*3+2) (by omega)
      simp only [h1, h2, h3])
  rw [create_genesis_palette, hmap]
  refine ⟨_, rfl, ?_, ?_⟩
  · simp
  · intro v hv
    rcases List.mem_append.1 hv with hv | hv
    · obtain ⟨i, hi, rfl⟩ := List.mem_map.1 hv
      obtain ⟨k, hk, rfl⟩ := List.mem_map.1 hi
      have hk16 : k < 16 := List.mem_range.1 hk
      have := rgb_to_genesis_color_le _ _ _
        (hbound (k*3) (by omega)) (hbound (k*3+1) (by omega)) (hbound (k*3+2) (by omega))
      omega
    · have := List.eq_of_mem_replicate hv
      omega

/-- Witness for C7 on a concrete 48-component quantizer palette. -/
theorem c7_create_genesis_palette_spec_witness :
    ∃ l, create_genesis_palette ((List.range 48).map (fun i => (i * 5) % 256)) = some l
      ∧ l.length = 16 ∧ ∀ v ∈ l, v < 512 :=
  c7_create_genesis_palette_spec _ (by simp) (by decide)

/-! ## BitmapWriter helper lemmas -/

theorem length_pack_pairs : ∀ l : List Nat, (pack_pairs l).length = l.length / 2
  | [] => by simp [pack_pairs]
  | [_] => by simp [pack_pairs]
  | a :: b :: rest => by
    simp only [pack_pairs, List.length_cons, length_pack_pairs rest]
    omega

theorem length_color_entry (c : Nat) : (color_entry c).length = 4 := rfl

theorem flatMap_eq_nil_of {α β : Type} (l : List α) (f : α → List β)
    (h : ∀ a ∈ l, f a = []) : l.flatMap f = [] := by
  induction l with
  | nil => rfl
  | cons a as ih =>
    simp only [List.flatMap_cons, h a (by simp), List.nil_append]
    exact ih (fun x hx => h x (by simp [hx]))

theorem raw_table_length (palette : List Nat) :
    (palette.flatMap color_entry).length = palette.length * 4 :=
  flatMap_length_const _ _ 4 (fun a _ => length_color_entry a)

theorem bmp_pixel_data_1x1_length (tile_data : List Nat) (ht : tile_data.length = 32) :
    (bmp_pixel_data tile_data 1 1).length = 32 := by
  rw [bmp_pixel_data]
  have hrow : ∀ y < 8,
      ((fun y =>
          let packed_row := pack_pairs (bmp_row tile_data 1 0 y)
          packed_row ++ List.replicate ((4 - packed_row.length % 4) % 4) 0) y).length
        = 4 := by
    intro y hy
    have hslice : ((tile_data.drop ((0 * 1 + 0) * 32 + y * 4)).take 4).length = 4 := by
      simp only [List.length_take, List.length_drop, ht]
      omega
    have hrowlen : (bmp_row tile_data 1 0 y).length = 8 := by
      have hinner :
          (((tile_data.drop ((0 * 1 + 0) * 32 + y * 4)).take 4).flatMap unpack_byte).length
            = 8 := by
        rw [flatMap_length_const _ unpack_byte 2 (fun a _ => rfl), hslice]
      rw [bmp_row]
      rw [flatMap_length_const _ _ 8 ?_]
      · simp
      · intro tx htx
        have htx0 : tx = 0 := by
          have := List.mem_range.1 htx; omega
        subst htx0
        exact hinner
    simp only [List.length_append, length_pack_pairs, hrowlen, List.length_replicate]
  have houter : ∀ ty ∈ (List.range 1).reverse,
      (((List.range 8).reverse).flatMap fun y =>
          let packed_row := pack_pairs (bmp_row tile_data 1 ty y)
          packed_row ++ List.replicate ((4 - packed_row.length % 4) % 4) 0).length
        = 32 := by
    intro ty hty
    have hty0 : ty = 0 := by
      have := List.mem_range.1 (List.mem_reverse.1 hty); omega
    subst hty0
    rw [flatMap_length_const _ _ 4 ?_]
    · simp
    · intro y hyy
      have hy8 : y < 8 := by
        have := List.mem_reverse.1 hyy
        exact List.mem_range.1 this
      exact hrow y hy8
  rw [flatMap_length_const _ _ 32 houter]
  simp

/-! ## C6: the bitmap header for a 1×1-tile image -/

/-- C6: for a 1-tile-by-1-tile reconstruction (16-entry palette, 32 tile
bytes), `create_bmp` emits exactly `54 + 64 + 32 = 150` bytes, and its 54
header bytes record (little-endian): signature "BM" (66, 77), file size 150
(bytes 2–5), pixel-data offset 118 (bytes 10–13), info-header size 40, width 8,
height 8, 1 plane (bytes 26–27), 4 bits per pixel (bytes 28–29), compression 0
(bytes 30–33), image size 0, 2835 pixels/meter twice, and 16 colors
used/important (bytes 46–49 and 50–53). -/
theorem c6_create_bmp_1x1_header (palette tile_data : List Nat)
    (hp : palette.length = 16) (ht : tile_data.length = 32) :
    (create_bmp palette tile_data 1 1).length = 150
    ∧ (create_bmp palette tile_data 1 1).take 54
        = [66, 77, 150, 0, 0, 0, 0, 0, 0, 0, 118, 0, 0, 0,
           40, 0, 0, 0, 8, 0, 0, 0, 8, 0, 0, 0, 1, 0, 4, 0,
           0, 0, 0, 0, 0, 0, 0, 0, 19, 11, 0, 0, 19, 11, 0, 0,
           16, 0, 0, 0, 16, 0, 0, 0] := by
  have key : create_bmp palette tile_data 1 1
      = ([66, 77, 150, 0, 0, 0, 0, 0, 0, 0, 118, 0, 0, 0,
          40, 0, 0, 0, 8, 0, 0, 0, 8, 0, 0, 0, 1, 0, 4, 0,
          0, 0, 0, 0, 0, 0, 0, 0, 19, 11, 0, 0, 19, 11, 0, 0,
          16, 0, 0, 0, 16, 0, 0, 0]
          ++ (palette.flatMap color_entry
              ++ List.replicate (64 - (palette.flatMap color_entry).length) 0))
        ++ bmp_pixel_data tile_data 1 1 := rfl
  have htab : (palette.flatMap color_entry
      ++ List.replicate (64 - (palette.flatMap color_entry).length) 0).length = 64 := by
    simp only [List.length_append, List.length_replicate, raw_table_length, hp]
  constructor
  · rw [key]
    simp only [List.length_append, htab, bmp_pixel_data_1x1_length tile_data ht]
    rfl
  · rw [key, List.append_assoc]
    exact List.take_left' rfl

/-- Witness for C6 on the all-zero 16-entry palette and 32-byte tile. -/
theorem c6_create_bmp_1x1_header_witness :
    (create_bmp (List.replicate 16 0) (List.replicate 32 0) 1 1).length = 150
    ∧ (create_bmp (List.replicate 16 0) (List.replicate 32 0) 1 1).take 54
        = [66, 77, 150, 0, 0, 0, 0, 0, 0, 0, 118, 0, 0, 0,
           40, 0, 0, 0, 8, 0, 0, 0, 8, 0, 0, 0, 1, 0, 4, 0,
           0, 0, 0, 0, 0, 0, 0, 0, 19, 11, 0, 0, 19, 11, 0, 0,
           16, 0, 0, 0, 16, 0, 0, 0] :=
  c6_create_bmp_1x1_header (List.replicate 16 0) (List.replicate 32 0)
    (by simp) (by simp)

/-! ## C9: insufficient tile data does not fail -/

/-- C9 (corrected): `create_bmp` never detects insufficient tile data — Python
slicing just yields short or empty rows.  With an empty tile byte list (as
produced for a document whose tile section is missing) and any requested tile
grid, the pixel-data section is empty and the writer still produces the
54 header bytes plus the 64-byte color table, i.e. a 118-byte file, instead of
failing. -/
theorem c9_create_bmp_empty_tiles (palette : List Nat) (wt ht : Nat)
    (hp : palette.length = 16) :
    bmp_pixel_data [] wt ht = [] ∧ (create_bmp palette [] wt ht).length = 118 := by
  have hpix : bmp_pixel_data [] wt ht = [] := by
    rw [bmp_pixel_data]
    apply flatMap_eq_nil_of
    intro ty _
    apply flatMap_eq_nil_of
    intro y _
    have hrow : bmp_row [] wt ty y = [] := by
      rw [bmp_row]
      apply flatMap_eq_nil_of
      intro tx _
      simp
    simp [hrow, pack_pairs]
  refine ⟨hpix, ?_⟩
  rw [create_bmp]
  simp only [List.length_append, hpix, List.length_nil, List.length_replicate,
    raw_table_length, hp, le16, le32, List.length_cons]

/-- Counterexample to C9 as stated: with an empty tile byte list (fewer than
the `1*1*32` bytes a 1×1 grid needs), `create_bmp` does not fail — it produces
a non-empty 118-byte output. -/
theorem c9_counterexample :
    (List.length ([] : List Nat) < 1 * 1 * 32)
    ∧ create_bmp [] [] 1 1 ≠ []
    ∧ (create_bmp [] [] 1 1).length = 118 := by decide

/-- Witness for the amended C9 with a 16-entry palette and a 3×2 grid. -/
theorem c9_create_bmp_empty_tiles_witness :
    bmp_pixel_data [] 3 2 = [] ∧ (create_bmp (List.replicate 16 0) [] 3 2).length = 118 :=
  c9_create_bmp_empty_tiles (List.replicate 16 0) 3 2 (by simp)

/-! ## C8: missing palette label -/

/-- C8: for any document that carries a `tile_data:` label but no
`palette_data:` label, the parser returns an empty palette list (it is a total
function — nothing is raised), and `create_bmp` applied to that empty palette
still emits a color table of 64 zero bytes (16 zeroed 4-byte entries) at bytes
54–117 of its output. -/
theorem c8_missing_palette (doc : List Char) (tiles : List Nat) (wt ht : Nat)
    (htile : afterLabel ("tile_data:".toList) doc ≠ none)
    (hpal : afterLabel ("palette_data:".toList) doc = none) :
    (parse_genesis_assembly doc).1 = []
    ∧ ((create_bmp [] tiles wt ht).drop 54).take 64 = List.replicate 64 0 := by
  constructor
  · show sectionHex "palette_data:".toList 3 4 doc = []
    rw [sectionHex, hpal]
  · have key : create_bmp [] tiles wt ht
        = ((le16 0x4D42 ++ le32 (54 + 64 + (wt*8) * (ht*8) / 2) ++ le16 0 ++ le16 0
              ++ le32 (54 + 64))
            ++ (le32 40 ++ le32 (wt*8) ++ le32 (ht*8) ++ le16 1 ++ le16 4 ++ le32 0
              ++ le32 0 ++ le32 2835 ++ le32 2835 ++ le32 16 ++ le32 16))
          ++ (List.replicate 64 0 ++ bmp_pixel_data tiles wt ht) := by
      rw [create_bmp]
      simp [List.append_assoc]
    rw [key]
    rw [List.drop_left' (by simp [le16, le32])]
    exact List.take_left' (by simp)

/-- Witness for C8: the document consisting of just `tile_data:` has a tile
label and no palette label. -/
theorem c8_missing_palette_witness :
    (parse_genesis_assembly ("tile_data:".toList)).1 = []
    ∧ ((create_bmp [] [0] 1 1).drop 54).take 64 = List.replicate 64 0 :=
  c8_missing_palette ("tile_data:".toList) [0] 1 1 (by decide) (by decide)

/-! ## Label search lemmas (the literal part of the section regexes) -/

theorem pfx_append_self (L r : List Char) : pfx L (L ++ r) = true := by
  induction L with
  | nil => rfl
  | cons a as ih => simp [pfx, ih]

theorem pfx_of_append (L x r : List Char) (h : pfx L (x ++ r) = true) :
    pfx L x = true ∨ pfx x L = true := by
  induction x generalizing L with
  | nil => right; rfl
  | cons a x' ihx =>
    cases L with
    | nil => left; rfl
    | cons l L' =>
      simp only [List.cons_append, pfx, Bool.and_eq_true, beq_iff_eq] at h
      obtain ⟨rfl, h2⟩ := h
      rcases ihx L' h2 with h3 | h3
      · left; simp [pfx, h3]
      · right; simp [pfx, h3]

theorem afterLabel_here (L rest : List Char) (hL : L ≠ []) :
    afterLabel L (L ++ rest) = some rest := by
  cases L with
  | nil => exact absurd rfl hL
  | cons l ls =>
    have hp := pfx_append_self (l :: ls) rest
    simp only [List.cons_append] at hp
    simp only [List.cons_append, afterLabel, List.append_eq]
    rw [if_pos hp]
    simp only [List.length_cons, List.drop_succ_cons, Option.some.injEq]
    exact List.drop_left ls rest

theorem afterLabel_skip (L seg rest : List Char)
    (h : ∀ i, i < seg.length → pfx L (seg.drop i) = false ∧ pfx (seg.drop i) L = false) :
    afterLabel L (seg ++ rest) = afterLabel L rest := by
  induction seg with
  | nil => simp
  | cons a s' ih =>
    have h0 := h 0 (by simp)
    simp only [List.drop_zero] at h0
    simp only [List.cons_append]
    rw [afterLabel, if_neg ?_]
    · exact ih (fun i hi => by
        have := h (i+1) (by simp only [List.length_cons]; omega)
        simpa using this)
    · intro hcontra
      have hc : pfx L ((a :: s') ++ rest) = true := by simpa using hcontra
      rcases pfx_of_append L (a :: s') rest hc with h1 | h1
      · rw [h0.1] at h1; cases h1
      · rw [h0.2] at h1; cases h1

theorem afterLabel_skip_head (l : Char) (L' seg rest : List Char)
    (h : ∀ c ∈ seg, c ≠ l) :
    afterLabel (l :: L') (seg ++ rest) = afterLabel (l :: L') rest := by
  apply afterLabel_skip
  intro i hi
  cases hd : seg.drop i with
  | nil =>
    exfalso
    have : (seg.drop i).length = seg.length - i := List.length_drop _ _
    rw [hd] at this
    simp at this
    omega
  | cons c cs =>
    have hc : c ∈ seg := by
      have hmem : c ∈ seg.drop i := by rw [hd]; simp
      exact List.mem_of_mem_drop hmem
    have hne : (l == c) = false := by
      simp only [beq_eq_false_iff_ne, ne_eq]
      exact fun he => (h c hc) he.symm
    have hne' : (c == l) = false := by
      simp only [beq_eq_false_iff_ne, ne_eq]
      exact h c hc
    constructor
    · simp [pfx, hne]
    · simp [pfx, hne']

/-! ## Whitespace and capture lemmas -/

theorem dropWhile_append_of_all (p : Char → Bool) (s t : List Char)
    (h : ∀ c ∈ s, p c = true) : (s ++ t).dropWhile p = t.dropWhile p := by
  induction s with
  | nil => rfl
  | cons a s' ih =>
    simp only [List.cons_append, List.dropWhile_cons, h a (by simp), if_true]
    exact ih (fun c hc => h c (by simp [hc]))

theorem captureUntil_cons_of_ne (c : Char) (l : List Char) (h : c ≠ '\n') :
    captureUntil (c :: l) = c :: captureUntil l := by
  cases l with
  | nil => rfl
  | cons d rest =>
    rw [captureUntil, if_neg (fun hx => h hx.1)]

theorem captureUntil_append_of_no_nl (s t : List Char) (h : ∀ c ∈ s, c ≠ '\n') :
    captureUntil (s ++ t) = s ++ captureUntil t := by
  induction s with
  | nil => rfl
  | cons a s' ih =>
    simp only [List.cons_append]
    rw [captureUntil_cons_of_ne a _ (h a (by simp))]
    rw [ih (fun c hc => h c (by simp [hc]))]

theorem captureUntil_nl_sp (d : Char) (rest : List Char) (h : isSpaceC d = true) :
    captureUntil ('\n' :: d :: rest) = '\n' :: captureUntil (d :: rest) := by
  rw [captureUntil, if_neg (fun hx => by rw [h] at hx; cases hx.2)]

theorem captureUntil_nl_stop (d : Char) (rest : List Char) (h : isSpaceC d = false) :
    captureUntil ('\n' :: d :: rest) = [] := by
  rw [captureUntil, if_pos ⟨rfl, h⟩]

/-! ## Hex digit and character-class lemmas -/

theorem hexDigitChar_facts : ∀ d < 16,
    isHexDigitC (hexDigitChar d) = true ∧ hexDigitVal (hexDigitChar d) = d
    ∧ hexDigitChar d ≠ '\n' ∧ hexDigitChar d ≠ '$' ∧ hexDigitChar d ≠ 't'
    ∧ hexDigitChar d ≠ 'p' ∧ isSpaceC (hexDigitChar d) = false := by decide

theorem decDigitChar_facts : ∀ d < 10,
    decDigitChar d ≠ '\n' ∧ decDigitChar d ≠ '$' ∧ decDigitChar d ≠ 't'
    ∧ decDigitChar d ≠ 'p' := by decide

theorem mem_natHexDigits : ∀ n : Nat, ∀ c ∈ natHexDigits n, ∃ d, d < 16 ∧ c = hexDigitChar d := by
  intro n
  induction n using Nat.strong_induction_on with
  | _ n ih =>
    intro c hc
    by_cases h0 : n = 0
    · rw [natHexDigits, dif_pos h0] at hc; cases hc
    · rw [natHexDigits, dif_neg h0] at hc
      rcases List.mem_append.1 hc with h | h
      · exact ih (n / 16) (Nat.div_lt_self (Nat.pos_of_ne_zero h0) (by omega)) c h
      · simp only [List.mem_singleton] at h
        exact ⟨n % 16, Nat.mod_lt _ (by omega), h⟩

theorem mem_toHexPad (w n : Nat) : ∀ c ∈ toHexPad w n, ∃ d, d < 16 ∧ c = hexDigitChar d := by
  intro c hc
  rw [toHexPad] at hc
  rcases List.mem_append.1 hc with h | h
  · have hc0 : c = '0' := List.eq_of_mem_replicate h
    exact ⟨0, by omega, by rw [hc0]; rfl⟩
  · exact mem_natHexDigits n c h

theorem mem_natDecDigits : ∀ n : Nat, ∀ c ∈ natDecDigits n, ∃ d, d < 10 ∧ c = decDigitChar d := by
  intro n
  induction n using Nat.strong_induction_on with
  | _ n ih =>
    intro c hc
    by_cases h0 : n = 0
    · rw [natDecDigits, dif_pos h0] at hc; cases hc
    · rw [natDecDigits, dif_neg h0] at hc
      rcases List.mem_append.1 hc with h | h
      · exact ih (n / 10) (Nat.div_lt_self (Nat.pos_of_ne_zero h0) (by omega)) c h
      · simp only [List.mem_singleton] at h
        exact ⟨n % 10, Nat.mod_lt _ (by omega), h⟩

theorem mem_toDec (n : Nat) : ∀ c ∈ toDec n, ∃ d, d < 10 ∧ c = decDigitChar d := by
  intro c hc
  rw [toDec] at hc
  by_cases h0 : n = 0
  · rw [if_pos h0] at hc
    simp only [List.mem_singleton] at hc
    exact ⟨0, by omega, by rw [hc]; rfl⟩
  · rw [if_neg h0] at hc
    exact mem_natDecDigits n c hc

theorem toDec_chars (n : Nat) : ∀ c ∈ toDec n, c ≠ '\n' ∧ c ≠ 't' ∧ c ≠ 'p' := by
  intro c hc
  obtain ⟨d, hd, rfl⟩ := mem_toDec n c hc
  have h := decDigitChar_facts d hd
  exact ⟨h.1, h.2.2.1, h.2.2.2⟩

/-! ## Hex value lemmas -/

theorem hexVal_cons_zero (l : List Char) : hexVal ('0' :: l) = hexVal l := by
  have h0 : hexDigitVal '0' = 0 := by decide
  simp only [hexVal, List.foldl_cons, h0]

theorem hexVal_natHexDigits : ∀ n : Nat, hexVal (natHexDigits n) = n := by
  intro n
  induction n using Nat.strong_induction_on with
  | _ n ih =>
    by_cases h0 : n = 0
    · rw [natHexDigits, dif_pos h0]; rw [h0]; rfl
    · rw [natHexDigits, dif_neg h0]
      have hrec := ih (n / 16) (Nat.div_lt_self (Nat.pos_of_ne_zero h0) (by omega))
      have hdig := (hexDigitChar_facts (n % 16) (Nat.mod_lt _ (by omega))).2.1
      simp only [hexVal, List.foldl_append, List.foldl_cons, List.foldl_nil]
      simp only [hexVal] at hrec
      rw [hrec, hdig]
      omega

theorem hexVal_pad_zeros (k : Nat) (ds : List Char) :
    hexVal (List.replicate k '0' ++ ds) = hexVal ds := by
  induction k with
  | zero => rfl
  | succ k ih =>
    rw [List.replicate_succ, List.cons_append, hexVal_cons_zero, ih]

theorem hexVal_toHexPad (w n : Nat) : hexVal (toHexPad w n) = n := by
  rw [toHexPad, hexVal_pad_zeros, hexVal_natHexDigits]

theorem length_natHexDigits_le : ∀ k n : Nat, n < 16 ^ k → (natHexDigits n).length ≤ k := by
  intro k
  induction k with
  | zero =>
    intro n h
    have h0 : n = 0 := by simpa using h
    rw [natHexDigits, dif_pos h0]
    simp
  | succ k ih =>
    intro n h
    by_cases h0 : n = 0
    · rw [natHexDigits, dif_pos h0]; simp
    · rw [natHexDigits, dif_neg h0]
      have hdiv : n / 16 < 16 ^ k := by
        rw [Nat.div_lt_iff_lt_mul (by omega)]
        calc n < 16 ^ (k+1) := h
          _ = 16 ^ k * 16 := by ring
      have := ih (n / 16) hdiv
      simp only [List.length_append, List.length_cons, List.length_nil]
      omega

theorem length_toHexPad (w n : Nat) (h : n < 16 ^ w) : (toHexPad w n).length = w := by
  rw [toHexPad]
  simp only [List.length_append, List.length_replicate]
  have := length_natHexDigits_le w n h
  omega

/-! ## Hex literal scanner lemmas -/

theorem scanHex_nil (lo hi : Nat) : scanHex lo hi [] = [] := by rw [scanHex]

theorem scanHex_cons_ne (lo hi : Nat) (c : Char) (l : List Char) (h : ¬ c = '$') :
    scanHex lo hi (c :: l) = scanHex lo hi l := by
  rw [scanHex, if_neg h]

theorem scanHex_append_ne (lo hi : Nat) (s l : List Char) (h : ∀ c ∈ s, c ≠ '$') :
    scanHex lo hi (s ++ l) = scanHex lo hi l := by
  induction s with
  | nil => rfl
  | cons a s' ih =>
    simp only [List.cons_append]
    rw [scanHex_cons_ne lo hi a _ (h a (by simp))]
    exact ih (fun c hc => h c (by simp [hc]))

theorem takeWhile_hex_of (ds l : List Char) (hds : ∀ c ∈ ds, isHexDigitC c = true)
    (hl : headNotHex l) : (ds ++ l).takeWhile isHexDigitC = ds := by
  induction ds with
  | nil =>
    cases l with
    | nil => rfl
    | cons c cs =>
      have hc : isHexDigitC c = false := hl
      simp [List.takeWhile_cons, hc]
  | cons a ds' ih =>
    simp only [List.cons_append, List.takeWhile_cons, hds a (by simp), if_true]
    rw [ih (fun c hc => hds c (by simp [hc]))]

theorem scanHex_lit (lo hi : Nat) (ds l : List Char) (hlen : ds.length = hi)
    (hlo : lo ≤ hi) (hds : ∀ c ∈ ds, isHexDigitC c = true) (hl : headNotHex l) :
    scanHex lo hi ('$' :: (ds ++ l)) = hexVal ds :: scanHex lo hi l := by
  rw [scanHex, if_pos rfl]
  simp only [takeWhile_hex_of ds l hds hl]
  rw [if_pos (by omega : lo ≤ ds.length)]
  rw [List.take_of_length_le (le_of_eq hlen)]
  rw [List.drop_left]

theorem scanHex_dollar_stop (lo hi : Nat) (l : List Char) (hlo : 1 ≤ lo)
    (hl : headNotHex l) : scanHex lo hi ('$' :: l) = scanHex lo hi l := by
  rw [scanHex, if_pos rfl]
  have hw : l.takeWhile isHexDigitC = [] := by
    cases l with
    | nil => rfl
    | cons c cs =>
      have hc : isHexDigitC c = false := hl
      simp [List.takeWhile_cons, hc]
  simp only [hw, List.length_nil]
  rw [if_neg (by omega)]

/-! ## Join, chunk and line lemmas -/

theorem joinWith_cons_cons (sep l x : List Char) (xs : List (List Char)) :
    joinWith sep (l :: x :: xs) = l ++ sep ++ joinWith sep (x :: xs) := by
  rw [joinWith]
  simp

theorem joinWith_cons_ne_nil (sep l : List Char) (ls : List (List Char)) (h : ls ≠ []) :
    joinWith sep (l :: ls) = l ++ sep ++ joinWith sep ls := by
  cases ls with
  | nil => exact absurd rfl h
  | cons x xs => exact joinWith_cons_cons sep l x xs

theorem mem_joinWith (sep : List Char) :
    ∀ ls : List (List Char), ∀ c ∈ joinWith sep ls, c ∈ sep ∨ ∃ l ∈ ls, c ∈ l := by
  intro ls
  induction ls with
  | nil => intro c hc; cases hc
  | cons l ls' ih =>
    cases ls' with
    | nil =>
      intro c hc
      right
      exact ⟨l, by simp, by simpa [joinWith] using hc⟩
    | cons x xs =>
      intro c hc
      rw [joinWith_cons_cons] at hc
      rcases List.mem_append.1 hc with h | h
      · rcases List.mem_append.1 h with h | h
        · right; exact ⟨l, by simp, h⟩
        · left; exact h
      · rcases ih c h with h | ⟨l', hl', hc'⟩
        · left; exact h
        · right; exact ⟨l', by simp [hl'], hc'⟩

theorem chunksOf_join (k : Nat) : ∀ l : List Nat, (chunksOf k l).flatten = l := by
  have H : ∀ n, ∀ l : List Nat, l.length = n → (chunksOf k l).flatten = l := by
    intro n
    induction n using Nat.strong_induction_on with
    | _ n ih =>
      intro l hn
      cases l with
      | nil => rw [chunksOf]; rfl
      | cons a rest =>
        rw [chunksOf]
        simp only [List.flatten_cons]
        have hlen : (rest.drop (k-1)).length < n := by
          simp only [List.length_cons] at hn
          simp only [List.length_drop]
          omega
        rw [ih _ hlen _ rfl]
        simp [List.take_append_drop]
  exact fun l => H l.length l rfl

theorem chunksOf_ne_nil (k : Nat) : ∀ l : List Nat, ∀ c ∈ chunksOf k l, c ≠ [] := by
  have H : ∀ n, ∀ l : List Nat, l.length = n → ∀ c ∈ chunksOf k l, c ≠ [] := by
    intro n
    induction n using Nat.strong_induction_on with
    | _ n ih =>
      intro l hn
      cases l with
      | nil => intro c hc; rw [chunksOf] at hc; cases hc
      | cons a rest =>
        intro c hc
        rw [chunksOf] at hc
        rcases List.mem_cons.1 hc with rfl | hmem
        · simp
        · have hlen : (rest.drop (k-1)).length < n := by
            simp only [List.length_cons] at hn
            simp only [List.length_drop]
            omega
          exact ih _ hlen _ rfl c hmem
  exact fun l => H l.length l rfl

theorem mem_chunksOf (k : Nat) : ∀ l : List Nat, ∀ c ∈ chunksOf k l, ∀ b ∈ c, b ∈ l := by
  have H : ∀ n, ∀ l : List Nat, l.length = n → ∀ c ∈ chunksOf k l, ∀ b ∈ c, b ∈ l := by
    intro n
    induction n using Nat.strong_induction_on with
    | _ n ih =>
      intro l hn
      cases l with
      | nil => intro c hc; rw [chunksOf] at hc; cases hc
      | cons a rest =>
        intro c hc b hb
        rw [chunksOf] at hc
        rcases List.mem_cons.1 hc with rfl | hmem
        · rcases List.mem_cons.1 hb with rfl | hb'
          · simp
          · have := List.mem_of_mem_take hb'
            simp [this]
        · have hlen : (rest.drop (k-1)).length < n := by
            simp only [List.length_cons] at hn
            simp only [List.length_drop]
            omega
          have hmb := ih _ hlen _ rfl c hmem b hb
          have := List.mem_of_mem_drop hmb
          simp [this]
  exact fun l => H l.length l rfl

theorem chunksOf_eq_nil_iff (k : Nat) (l : List Nat) : chunksOf k l = [] ↔ l = [] := by
  cases l with
  | nil => simp [chunksOf]
  | cons a rest => rw [chunksOf]; simp

/-! ## Character classification of the formatted lines -/

theorem dcw_chars (vs : List Nat) :
    ∀ c ∈ dcwLine vs, c ≠ '\n' ∧ c ≠ 't' ∧ c ≠ 'p' := by
  intro c hc
  rw [dcwLine] at hc
  rcases List.mem_append.1 hc with h | h
  · have hfix : ∀ x ∈ "    dc.w ".toList, x ≠ '\n' ∧ x ≠ 't' ∧ x ≠ 'p' := by decide
    exact hfix c h
  · rcases mem_joinWith _ _ c h with h | ⟨l, hl, hc'⟩
    · have hsep : ∀ x ∈ ", ".toList, x ≠ '\n' ∧ x ≠ 't' ∧ x ≠ 'p' := by decide
      exact hsep c h
    · obtain ⟨v, _, rfl⟩ := List.mem_map.1 hl
      rcases List.mem_cons.1 hc' with rfl | hc''
      · refine ⟨by decide, by decide, by decide⟩
      · obtain ⟨d, hd, rfl⟩ := mem_toHexPad 4 v c hc''
        have hf := hexDigitChar_facts d hd
        exact ⟨hf.2.2.1, hf.2.2.2.2.1, hf.2.2.2.2.2.1⟩

theorem dcb_chars (bs : List Nat) :
    ∀ c ∈ dcbLine bs, c ≠ '\n' ∧ c ≠ 't' ∧ c ≠ 'p' := by
  intro c hc
  rw [dcbLine] at hc
  rcases List.mem_append.1 hc with h | h
  · have hfix : ∀ x ∈ "    dc.b $".toList, x ≠ '\n' ∧ x ≠ 't' ∧ x ≠ 'p' := by decide
    exact hfix c h
  · rcases mem_joinWith _ _ c h with h | ⟨l, hl, hc'⟩
    · have hsep : ∀ x ∈ ", $".toList, x ≠ '\n' ∧ x ≠ 't' ∧ x ≠ 'p' := by decide
      exact hsep c h
    · obtain ⟨v, _, rfl⟩ := List.mem_map.1 hl
      obtain ⟨d, hd, rfl⟩ := mem_toHexPad 2 v c hc'
      have hf := hexDigitChar_facts d hd
      exact ⟨hf.2.2.1, hf.2.2.2.2.1, hf.2.2.2.2.2.1⟩

/-! ## Scanning the literal runs emitted by the formatter -/

theorem toHexPad_is_hex (w v : Nat) : ∀ c ∈ toHexPad w v, isHexDigitC c = true := by
  intro c hc
  obtain ⟨d, hd, rfl⟩ := mem_toHexPad w v c hc
  exact (hexDigitChar_facts d hd).1

theorem scanHex_dcw (vs : List Nat) (suffix : List Char)
    (hv : ∀ v ∈ vs, v < 65536) (hs : headNotHex suffix) :
    scanHex 3 4 (joinWith (", ".toList) (vs.map fun v => '$' :: toHexPad 4 v) ++ suffix)
      = vs ++ scanHex 3 4 suffix := by
  induction vs with
  | nil => simp [joinWith]
  | cons v vs' ih =>
    have hv4 : v < 16 ^ 4 := by have := hv v (by simp); omega
    cases vs' with
    | nil =>
      simp only [List.map_cons, List.map_nil, joinWith, List.cons_append]
      rw [scanHex_lit 3 4 _ suffix (length_toHexPad 4 v hv4) (by omega)
        (toHexPad_is_hex 4 v) hs]
      rw [hexVal_toHexPad]
      simp
    | cons v2 vs'' =>
      rw [List.map_cons, joinWith_cons_ne_nil _ _ _ (by simp)]
      have hassoc :
          ((('$' :: toHexPad 4 v) ++ ", ".toList
              ++ joinWith (", ".toList) ((v2 :: vs'').map fun v => '$' :: toHexPad 4 v))
            ++ suffix)
          = '$' :: (toHexPad 4 v ++ (", ".toList
              ++ (joinWith (", ".toList) ((v2 :: vs'').map fun v => '$' :: toHexPad 4 v)
                ++ suffix))) := by
        simp [List.append_assoc]
      rw [hassoc]
      rw [scanHex_lit 3 4 _ _ (length_toHexPad 4 v hv4) (by omega)
        (toHexPad_is_hex 4 v) (by exact (by decide : isHexDigitC ',' = false))]
      rw [hexVal_toHexPad]
      rw [scanHex_append_ne 3 4 (", ".toList) _ (by decide)]
      rw [ih (fun x hx => hv x (by simp [hx]))]
      simp

theorem scanHex_dcb (bs : List Nat) (suffix : List Char)
    (hb : ∀ b ∈ bs, b < 256) (hs : headNotHex suffix) :
    scanHex 2 2 ('$' :: (joinWith (", $".toList) (bs.map (toHexPad 2)) ++ suffix))
      = bs ++ scanHex 2 2 suffix := by
  induction bs with
  | nil =>
    simp only [List.map_nil, joinWith, List.nil_append]
    rw [scanHex_dollar_stop 2 2 suffix (by omega) hs]
  | cons b bs' ih =>
    have hb2 : b < 16 ^ 2 := by have := hb b (by simp); omega
    cases bs' with
    | nil =>
      simp only [List.map_cons, List.map_nil, joinWith]
      rw [scanHex_lit 2 2 _ suffix (length_toHexPad 2 b hb2) (by omega)
        (toHexPad_is_hex 2 b) hs]
      rw [hexVal_toHexPad]
      simp
    | cons b2 bs'' =>
      rw [List.map_cons, joinWith_cons_ne_nil _ _ _ (by simp)]
      have hassoc :
          ('$' :: ((toHexPad 2 b ++ ", $".toList
              ++ joinWith (", $".toList) ((b2 :: bs'').map (toHexPad 2))) ++ suffix))
          = '$' :: (toHexPad 2 b ++ (',' :: ' ' ::
              ('$' :: (joinWith (", $".toList) ((b2 :: bs'').map (toHexPad 2)) ++ suffix)))) := by
        simp [List.append_assoc]
      rw [hassoc]
      rw [scanHex_lit 2 2 _ _ (length_toHexPad 2 b hb2) (by omega)
        (toHexPad_is_hex 2 b) (by exact (by decide : isHexDigitC ',' = false))]
      rw [hexVal_toHexPad]
      rw [scanHex_cons_ne 2 2 ',' _ (by decide), scanHex_cons_ne 2 2 ' ' _ (by decide)]
      rw [ih (fun x hx => hb x (by simp [hx]))]
      simp

/-! ## Assembling and disassembling the formatted document -/

theorem afterLabel_cons_ne (l : Char) (L' : List Char) (c : Char) (rest : List Char)
    (h : c ≠ l) : afterLabel (l :: L') (c :: rest) = afterLabel (l :: L') rest :=
  afterLabel_skip_head l L' [c] rest (by simp [h])

theorem captureUntil_nl_cons_of (X : List Char) (c : Char) (rest : List Char)
    (hX : X = c :: rest) (hc : isSpaceC c = true) :
    captureUntil ('\n' :: X) = '\n' :: captureUntil X := by
  subst hX; exact captureUntil_nl_sp c rest hc

theorem captureUntil_stop_of (X : List Char) (c : Char) (rest : List Char)
    (hX : X = c :: rest) (hc : isSpaceC c = false) :
    captureUntil ('\n' :: X) = [] := by
  subst hX; exact captureUntil_nl_stop c rest hc

theorem dropWhile_sp_cons (c : Char) (l : List Char) (h : isSpaceC c = true) :
    (c :: l).dropWhile isSpaceC = l.dropWhile isSpaceC := by
  simp [List.dropWhile_cons, h]

theorem dropWhile_stop (c : Char) (l : List Char) (h : isSpaceC c = false) :
    (c :: l).dropWhile isSpaceC = c :: l := by
  simp [List.dropWhile_cons, h]

theorem dropWhile_indent_w (X : List Char) :
    ("    dc.w ".toList ++ X).dropWhile isSpaceC = "dc.w ".toList ++ X := by
  have h : "    dc.w ".toList ++ X
      = ' ' :: (' ' :: (' ' :: (' ' :: ("dc.w ".toList ++ X)))) := rfl
  have h2 : "dc.w ".toList ++ X = 'd' :: ("c.w ".toList ++ X) := rfl
  rw [h, dropWhile_sp_cons _ _ (by decide), dropWhile_sp_cons _ _ (by decide),
    dropWhile_sp_cons _ _ (by decide), dropWhile_sp_cons _ _ (by decide),
    h2, dropWhile_stop _ _ (by decide)]

theorem dropWhile_indent_b (X : List Char) :
    ("    dc.b $".toList ++ X).dropWhile isSpaceC = "dc.b $".toList ++ X := by
  have h : "    dc.b $".toList ++ X
      = ' ' :: (' ' :: (' ' :: (' ' :: ("dc.b $".toList ++ X)))) := rfl
  have h2 : "dc.b $".toList ++ X = 'd' :: ("c.b $".toList ++ X) := rfl
  rw [h, dropWhile_sp_cons _ _ (by decide), dropWhile_sp_cons _ _ (by decide),
    dropWhile_sp_cons _ _ (by decide), dropWhile_sp_cons _ _ (by decide),
    h2, dropWhile_stop _ _ (by decide)]

theorem capture_nl_indent_w (X : List Char) :
    captureUntil ('\n' :: ("    dc.w ".toList ++ X))
      = '\n' :: captureUntil ("    dc.w ".toList ++ X) :=
  captureUntil_nl_cons_of _ ' ' _ rfl (by decide)

theorem capture_nl_indent_b (X : List Char) :
    captureUntil ('\n' :: ("    dc.b $".toList ++ X))
      = '\n' :: captureUntil ("    dc.b $".toList ++ X) :=
  captureUntil_nl_cons_of _ ' ' _ rfl (by decide)

theorem capture_nl_nl (X : List Char) :
    captureUntil ('\n' :: ('\n' :: X)) = '\n' :: captureUntil ('\n' :: X) :=
  captureUntil_nl_cons_of _ '\n' X rfl (by decide)

theorem capture_nl_semi (X : List Char) :
    captureUntil ('\n' :: ("; Genesis Tile Data".toList ++ X)) = [] :=
  captureUntil_stop_of _ ';' _ rfl (by decide)

theorem dcwLine_append (vs : List Nat) (X : List Char) :
    dcwLine vs ++ X
      = "    dc.w ".toList
        ++ (joinWith (", ".toList) (vs.map fun v => '$' :: toHexPad 4 v) ++ X) := by
  simp [dcwLine, List.append_assoc]

theorem dcbLine_append (bs : List Nat) (X : List Char) :
    dcbLine bs ++ X
      = "    dc.b $".toList
        ++ (joinWith (", $".toList) (bs.map (toHexPad 2)) ++ X) := by
  simp [dcbLine, List.append_assoc]

theorem dcb_dollar_split (Z : List Char) :
    "dc.b $".toList ++ Z = "dc.b ".toList ++ ('$' :: Z) := rfl

theorem dcb_dollar_split_indent (Z : List Char) :
    "    dc.b $".toList ++ Z = "    dc.b ".toList ++ ('$' :: Z) := rfl

theorem dcwJoin_no_nl (vs : List Nat) :
    ∀ x ∈ joinWith (", ".toList) (vs.map fun v => '$' :: toHexPad 4 v), x ≠ '\n' :=
  fun x hx => (dcw_chars vs x (List.mem_append_right _ hx)).1

theorem dcwJoin_no_t (vs : List Nat) :
    ∀ x ∈ joinWith (", ".toList) (vs.map fun v => '$' :: toHexPad 4 v), x ≠ 't' :=
  fun x hx => (dcw_chars vs x (List.mem_append_right _ hx)).2.1

theorem dcbJoin_no_nl (bs : List Nat) :
    ∀ x ∈ joinWith (", $".toList) (bs.map (toHexPad 2)), x ≠ '\n' :=
  fun x hx => (dcb_chars bs x (List.mem_append_right _ hx)).1

theorem dcwLine_no_t (vs : List Nat) : ∀ x ∈ dcwLine vs, x ≠ 't' :=
  fun x hx => (dcw_chars vs x hx).2.1

theorem headNotHex_tileTail (cs : List (List Nat)) : headNotHex (tileTail cs) := by
  cases cs with
  | nil => trivial
  | cons c cs' => exact (by decide : isHexDigitC '\n' = false)

theorem joinWith_dcb_lines : ∀ (cs : List (List Nat)) (c : List Nat),
    joinWith ['\n'] (dcbLine c :: cs.map dcbLine) = dcbLine c ++ tileTail cs := by
  intro cs
  induction cs with
  | nil => intro c; simp [joinWith, tileTail]
  | cons c2 cs' ih =>
    intro c
    rw [List.map_cons, joinWith_cons_cons, tileTail, ih c2]
    simp [List.append_assoc]

theorem joinWith_tileTail (chunks : List (List Nat)) :
    joinWith ['\n'] ("tile_data:".toList :: chunks.map dcbLine)
      = "tile_data:".toList ++ tileTail chunks := by
  cases chunks with
  | nil => simp [joinWith, tileTail]
  | cons c cs =>
    rw [List.map_cons, joinWith_cons_cons, joinWith_dcb_lines cs c, tileTail]
    simp [List.append_assoc]

theorem capture_tileTail : ∀ cs : List (List Nat), captureUntil (tileTail cs) = tileTail cs := by
  intro cs
  induction cs with
  | nil => rfl
  | cons c cs' ih =>
    rw [tileTail]
    rw [dcbLine_append]
    rw [capture_nl_indent_b]
    congr 1
    rw [captureUntil_append_of_no_nl _ _ (by decide)]
    rw [captureUntil_append_of_no_nl _ _ (dcbJoin_no_nl c)]
    rw [ih]

theorem scan_tileTail : ∀ cs : List (List Nat), (∀ ck ∈ cs, ∀ b ∈ ck, b < 256) →
    scanHex 2 2 (tileTail cs) = cs.flatten := by
  intro cs
  induction cs with
  | nil => intro _; rw [tileTail]; exact scanHex_nil 2 2
  | cons c cs' ih =>
    intro hb
    rw [tileTail, scanHex_cons_ne 2 2 '\n' _ (by decide)]
    rw [dcbLine_append, dcb_dollar_split_indent]
    rw [scanHex_append_ne 2 2 ("    dc.b ".toList) _ (by decide)]
    rw [scanHex_dcb c _ (hb c (by simp)) (headNotHex_tileTail cs')]
    rw [ih (fun ck hck => hb ck (by simp [hck]))]
    simp

theorem sectionHex_some (label : List Char) (lo hi : Nat) (content rest : List Char)
    (h : afterLabel label content = some rest) :
    sectionHex label lo hi content
      = scanHex lo hi (captureUntil (rest.dropWhile isSpaceC)) := by
  rw [sectionHex, h]

/-! ## C2: formatter and parser are mutual inverses on formatter output -/

/-- C2: for every palette of exactly 16 Color9 values and every tile byte
stream, parsing the assembly document emitted by the formatter returns exactly
that palette and exactly that tile byte list (whatever tile-count numbers are
printed in the comment line). -/
theorem c2_format_parse_roundtrip (palette tile_data : List Nat)
    (total tiles_x tiles_y : Nat)
    (hp : palette.length = 16) (hv : ∀ v ∈ palette, v < 512)
    (ht : ∀ b ∈ tile_data, b < 256) :
    parse_genesis_assembly (format_output palette tile_data total tiles_x tiles_y)
      = (palette, tile_data) := by
  have hdoc : format_output palette tile_data total tiles_x tiles_y
      = "; Genesis Palette Data (16 colors)".toList ++ ('\n' ::
        ("palette_data:".toList ++ ('\n' ::
        (dcwLine (palette.take 8) ++ ('\n' ::
        (dcwLine ((palette.drop 8).take 8) ++ ('\n' :: ('\n' ::
        ("; Genesis Tile Data".toList ++ ('\n' ::
        ("; ".toList ++ (toDec total ++ (" tiles (".toList ++ (toDec tiles_x ++
          ("x".toList ++ (toDec tiles_y ++ (")".toList ++ ('\n' ::
        ("tile_data:".toList ++ tileTail (chunksOf 16 tile_data)))))))))))))))))))) := by
    rw [format_output]
    simp only [List.cons_append, List.nil_append]
    rw [joinWith_cons_cons, joinWith_cons_cons, joinWith_cons_cons, joinWith_cons_cons,
      joinWith_cons_cons, joinWith_cons_cons, joinWith_cons_cons, joinWith_tileTail]
    simp [List.append_assoc]
  have hlabp : "palette_data:".toList = 'p' :: "alette_data:".toList := rfl
  have hlabt : "tile_data:".toList = 't' :: "ile_data:".toList := rfl
  have hnhNL : ∀ X : List Char, headNotHex ('\n' :: X) :=
    fun _ => (by decide : isHexDigitC '\n' = false)
  have hvA : ∀ v ∈ palette.take 8, v < 65536 := by
    intro v hvm
    have := hv v (List.mem_of_mem_take hvm)
    omega
  have hvB : ∀ v ∈ (palette.drop 8).take 8, v < 65536 := by
    intro v hvm
    have := hv v (List.mem_of_mem_drop (List.mem_of_mem_take hvm))
    omega
  have hdect : ∀ c ∈ toDec total, c ≠ 't' := fun c hc => (toDec_chars total c hc).2.1
  have hdecx : ∀ c ∈ toDec tiles_x, c ≠ 't' := fun c hc => (toDec_chars tiles_x c hc).2.1
  have hdecy : ∀ c ∈ toDec tiles_y, c ≠ 't' := fun c hc => (toDec_chars tiles_y c hc).2.1
  have hpal : afterLabel "palette_data:".toList
      (format_output palette tile_data total tiles_x tiles_y)
      = some ('\n' ::
        (dcwLine (palette.take 8) ++ ('\n' ::
        (dcwLine ((palette.drop 8).take 8) ++ ('\n' :: ('\n' ::
        ("; Genesis Tile Data".toList ++ ('\n' ::
        ("; ".toList ++ (toDec total ++ (" tiles (".toList ++ (toDec tiles_x ++
          ("x".toList ++ (toDec tiles_y ++ (")".toList ++ ('\n' ::
        ("tile_data:".toList ++ tileTail (chunksOf 16 tile_data)))))))))))))))))) := by
    rw [hdoc, hlabp]
    rw [afterLabel_skip_head 'p' _ _ _ (by decide)]
    rw [afterLabel_cons_ne 'p' _ '\n' _ (by decide)]
    exact afterLabel_here _ _ (by simp)
  have htl : afterLabel "tile_data:".toList
      (format_output palette tile_data total tiles_x tiles_y)
      = some (tileTail (chunksOf 16 tile_data)) := by
    rw [hdoc, hlabt]
    rw [afterLabel_skip _ ("; Genesis Palette Data (16 colors)".toList) _ (by decide)]
    rw [afterLabel_cons_ne 't' _ '\n' _ (by decide)]
    rw [afterLabel_skip _ ("palette_data:".toList) _ (by decide)]
    rw [afterLabel_cons_ne 't' _ '\n' _ (by decide)]
    rw [afterLabel_skip_head 't' _ (dcwLine (palette.take 8)) _ (dcwLine_no_t _)]
    rw [afterLabel_cons_ne 't' _ '\n' _ (by decide)]
    rw [afterLabel_skip_head 't' _ (dcwLine ((palette.drop 8).take 8)) _ (dcwLine_no_t _)]
    rw [afterLabel_cons_ne 't' _ '\n' _ (by decide)]
    rw [afterLabel_cons_ne 't' _ '\n' _ (by decide)]
    rw [afterLabel_skip _ ("; Genesis Tile Data".toList) _ (by decide)]
    rw [afterLabel_cons_ne 't' _ '\n' _ (by decide)]
    rw [afterLabel_skip_head 't' _ ("; ".toList) _ (by decide)]
    rw [afterLabel_skip_head 't' _ (toDec total) _ hdect]
    rw [afterLabel_skip _ (" tiles (".toList) _ (by decide)]
    rw [afterLabel_skip_head 't' _ (toDec tiles_x) _ hdecx]
    rw [afterLabel_skip_head 't' _ ("x".toList) _ (by decide)]
    rw [afterLabel_skip_head 't' _ (toDec tiles_y) _ hdecy]
    rw [afterLabel_skip_head 't' _ (")".toList) _ (by decide)]
    rw [afterLabel_cons_ne 't' _ '\n' _ (by decide)]
    exact afterLabel_here _ _ (by simp)
  have hsecpal : sectionHex "palette_data:".toList 3 4
      (format_output palette tile_data total tiles_x tiles_y) = palette := by
    rw [sectionHex_some _ _ _ _ _ hpal]
    rw [dropWhile_sp_cons '\n' _ (by decide)]
    rw [dcwLine_append]
    rw [dropWhile_indent_w]
    rw [captureUntil_append_of_no_nl ("dc.w ".toList) _ (by decide)]
    rw [captureUntil_append_of_no_nl _ _ (dcwJoin_no_nl (palette.take 8))]
    rw [dcwLine_append]
    rw [capture_nl_indent_w]
    rw [captureUntil_append_of_no_nl ("    dc.w ".toList) _ (by decide)]
    rw [captureUntil_append_of_no_nl _ _ (dcwJoin_no_nl ((palette.drop 8).take 8))]
    rw [capture_nl_nl, capture_nl_semi]
    rw [scanHex_append_ne 3 4 ("dc.w ".toList) _ (by decide)]
    rw [scanHex_dcw (palette.take 8) _ hvA (hnhNL _)]
    rw [scanHex_cons_ne 3 4 '\n' _ (by decide)]
    rw [scanHex_append_ne 3 4 ("    dc.w ".toList) _ (by decide)]
    rw [scanHex_dcw ((palette.drop 8).take 8) _ hvB (hnhNL _)]
    rw [scanHex_cons_ne 3 4 '\n' _ (by decide), scanHex_nil]
    simp only [List.append_nil]
    rw [List.take_of_length_le (by simp [hp] : (palette.drop 8).length ≤ 8)]
    exact List.take_append_drop 8 palette
  have hsectil : sectionHex "tile_data:".toList 2 2
      (format_output palette tile_data total tiles_x tiles_y) = tile_data := by
    rw [sectionHex_some _ _ _ _ _ htl]
    cases hc : chunksOf 16 tile_data with
    | nil =>
      have htd : tile_data = [] := (chunksOf_eq_nil_iff 16 tile_data).1 hc
      rw [tileTail, htd]
      simp [scanHex_nil, captureUntil]
    | cons c0 cs =>
      have hc0mem : c0 ∈ chunksOf 16 tile_data := by
        rw [hc]; exact List.mem_cons_self _ _
      have hb0 : ∀ b ∈ c0, b < 256 :=
        fun b hb => ht b (mem_chunksOf 16 tile_data c0 hc0mem b hb)
      have hbcs : ∀ ck ∈ cs, ∀ b ∈ ck, b < 256 := fun ck hck b hb =>
        ht b (mem_chunksOf 16 tile_data ck (by rw [hc]; exact List.mem_cons_of_mem _ hck) b hb)
      rw [tileTail]
      rw [dcbLine_append]
      rw [dropWhile_sp_cons '\n' _ (by decide)]
      rw [dropWhile_indent_b]
      rw [captureUntil_append_of_no_nl ("dc.b $".toList) _ (by decide)]
      rw [captureUntil_append_of_no_nl _ _ (dcbJoin_no_nl c0)]
      rw [capture_tileTail]
      rw [dcb_dollar_split]
      rw [scanHex_append_ne 2 2 ("dc.b ".toList) _ (by decide)]
      rw [scanHex_dcb c0 _ hb0 (headNotHex_tileTail cs)]
      rw [scan_tileTail cs hbcs]
      have hj := chunksOf_join 16 tile_data
      rw [hc] at hj
      simpa using hj
  rw [parse_genesis_assembly, hsecpal, hsectil]

/-- Witness for C2 on a concrete 16-word palette and 3-byte tile stream. -/
theorem c2_format_parse_roundtrip_witness :
    parse_genesis_assembly
        (format_output [7, 511, 0, 1, 2, 3, 4, 5, 6, 7, 8, 9, 10, 11, 12, 256]
          [0, 255, 26] 1 1 1)
      = ([7, 511, 0, 1, 2, 3, 4, 5, 6, 7, 8, 9, 10, 11, 12, 256], [0, 255, 26]) :=
  c2_format_parse_roundtrip [7, 511, 0, 1, 2, 3, 4, 5, 6, 7, 8, 9, 10, 11, 12, 256]
    [0, 255, 26] 1 1 1 (by decide) (by decide) (by decide)

end Genesis
